import Mathlib

/-!
Verification development for the `open-encrypto-object` repository
(`src/index.js`): a value-level authenticated-encryption codec plus a
shape-preserving tree walker.

The JavaScript source is embedded shallowly:

* JSON-shaped JavaScript values become the mutual inductive `JSValue`
  (`Null`, `undefined`, `Bool`, `Number`, `String`, arrays, objects with
  ordered own-enumerable entries).
* JavaScript numbers are modelled exactly as normalized decimal values
  `m * 10 ^ e` (plus `Infinity`, `-Infinity`, `NaN`).  IEEE-754 rounding,
  the 2^53 precision bound and the extreme-magnitude scientific-notation
  thresholds of `Number.prototype.toString` are outside the embedding.
* The platform primitives used by the source but not part of the
  repository (Node `crypto` AES-256-GCM, `Buffer` base64/hex codecs,
  UTF-8) are modelled from the specification: a deterministic
  keystream-XOR cipher (the CTR-mode structure of GCM) with an exact
  recomputed authentication tag idealized as collision-free, a strict
  (canonical) base64 codec, a strict hex codec, and an injective byte
  serialization of character data.
* Thrown JavaScript errors become `Except CodecError`; the three error
  kinds of the specification become the inductive `CodecError`.
-/

/-- Error kinds of the codec: `ConfigurationError` (bad key material at
initialization), `EncryptionError` (encrypt-side failure, including the
keys-not-configured guard of `encryptJsonObject`), `DecryptionError`
(authentication failure, malformed base64, or the keys-not-configured
guard of `decryptJsonObject`). -/
inductive CodecError where
  | configurationError
  | encryptionError
  | decryptionError
deriving DecidableEq

/-- Model of a JavaScript number: `dec m e` is the finite value
`m * 10 ^ e` kept in normalized form (`m` not divisible by 10 unless 0,
and `e = 0` when `m = 0`), `inf neg` is `Infinity` / `-Infinity`, and
`nan` is `NaN`.  Every IEEE double is a finite decimal, so finite doubles
in the moderate range are represented exactly; rounding and precision
limits of 64-bit floats are outside the embedding. -/
inductive JSNum where
  | dec (m : Int) (e : Int)
  | inf (neg : Bool)
  | nan
deriving DecidableEq

/-- Well-formedness of the normalized decimal representation. -/
def JSNum.wf : JSNum → Bool
  | .dec m e => if m = 0 then e = 0 else decide (m % 10 ≠ 0)
  | .inf _ => true
  | .nan => true

/-- Strip factors of 10 from the mantissa into the exponent; the fuel is
an upper bound on how many times 10 can divide `m`. -/
def stripTensAux : Nat → Int → Int → JSNum
  | 0, m, e => .dec m e
  | f + 1, m, e => if m % 10 = 0 then stripTensAux f (m / 10) (e + 1) else .dec m e

/-- Normalize a decimal mantissa/exponent pair (`0` normalizes to
`dec 0 0`). -/
def normDec (m e : Int) : JSNum :=
  if m = 0 then .dec 0 0 else stripTensAux m.natAbs m e

/-- Decimal digit character for a value below 10. -/
def digitChar (d : Nat) : Char := Char.ofNat (48 + d % 10)

/-- Fuel-driven most-significant-first decimal digits accumulator. -/
def digitsOfNatAux : Nat → Nat → List Char → List Char
  | 0, _, acc => acc
  | f + 1, n, acc =>
    if n < 10 then digitChar n :: acc
    else digitsOfNatAux f (n / 10) (digitChar (n % 10) :: acc)

/-- Decimal digit characters of a natural number, most significant first
(`0` prints as `"0"`). -/
def digitsOfNat (n : Nat) : List Char := digitsOfNatAux (n + 1) n []

/-- Numeric value of a decimal digit character. -/
def digitVal (c : Char) : Nat := c.toNat - 48

/-- Value of a most-significant-first list of decimal digit characters. -/
def digitsVal (ds : List Char) : Nat := ds.foldl (fun a c => a * 10 + digitVal c) 0

/-- Positional decimal rendering of a normalized nonnegative mantissa and
exponent: `m * 10 ^ e` printed as JavaScript prints doubles in the
moderate range (no scientific notation). -/
def decChars (m : Nat) (e : Int) : List Char :=
  if 0 ≤ e then digitsOfNat m ++ List.replicate e.toNat '0'
  else
    let k := (-e).toNat
    let ds := digitsOfNat m
    if k < ds.length then ds.take (ds.length - k) ++ '.' :: ds.drop (ds.length - k)
    else '0' :: '.' :: (List.replicate (k - ds.length) '0' ++ ds)

/-- Canonical string form of a model JavaScript number, as produced by
`String(value)` in the source (`encryptValue` stringifies every scalar
with it). -/
def numToString : JSNum → String
  | .nan => "NaN"
  | .inf false => "Infinity"
  | .inf true => "-Infinity"
  | .dec m e =>
    if m < 0 then String.mk ('-' :: decChars m.natAbs e)
    else String.mk (decChars m.natAbs e)

/-- Whitespace characters stripped by JavaScript `String.prototype.trim`
and by `ToNumber` (the ASCII fragment; exotic Unicode spaces are outside
the embedding). -/
def isWsChar (c : Char) : Bool :=
  c.toNat == 32 || c.toNat == 9 || c.toNat == 10 || c.toNat == 11 ||
    c.toNat == 12 || c.toNat == 13

/-- Both-ends whitespace trim, as `decrypted.trim()` in `decryptValue`. -/
def trimJS (cs : List Char) : List Char :=
  ((cs.dropWhile isWsChar).reverse.dropWhile isWsChar).reverse

/-- Optional exponent suffix of a decimal literal (`e`/`E`, optional
sign, one or more digits); `some 0` when absent, `none` when malformed. -/
def parseExpSuffix : List Char → Option Int
  | [] => some 0
  | c :: rest =>
    if c = 'e' ∨ c = 'E' then
      match rest with
      | '+' :: ds => if ds ≠ [] ∧ ds.all Char.isDigit then some (digitsVal ds : Int) else none
      | '-' :: ds => if ds ≠ [] ∧ ds.all Char.isDigit then some (-(digitsVal ds : Int)) else none
      | ds => if ds ≠ [] ∧ ds.all Char.isDigit then some (digitsVal ds : Int) else none
    else none

/-- JavaScript `StrDecimalLiteral` after the optional sign: `Infinity`,
or decimal digits with optional fraction and exponent.  Returns the
normalized numeric value, `none` when the text is not a full literal. -/
def jsDecimalLit (cs : List Char) (neg : Bool) : Option JSNum :=
  if cs = ("Infinity".data) then some (.inf neg)
  else
    let ip := cs.takeWhile Char.isDigit
    let r1 := cs.dropWhile Char.isDigit
    let fp := match r1 with
      | '.' :: r => r.takeWhile Char.isDigit
      | _ => []
    let r2 := match r1 with
      | '.' :: r => r.dropWhile Char.isDigit
      | _ => r1
    if ip = [] ∧ fp = [] then none
    else
      match parseExpSuffix r2 with
      | none => none
      | some ex =>
        let mant : Nat := digitsVal (ip ++ fp)
        let sm : Int := if neg then -(mant : Int) else (mant : Int)
        some (normDec sm (ex - fp.length))

/-- Digit value in a given radix, for the hex/octal/binary integer
literals of `ToNumber`. -/
def radixVal (radix : Nat) (c : Char) : Option Nat :=
  let n := c.toNat
  let v :=
    if 48 ≤ n ∧ n ≤ 57 then some (n - 48)
    else if 97 ≤ n ∧ n ≤ 122 then some (n - 97 + 10)
    else if 65 ≤ n ∧ n ≤ 90 then some (n - 65 + 10)
    else none
  match v with
  | some d => if d < radix then some d else none
  | none => none

/-- Value of a nonempty digit string in a given radix; `none` when empty
or containing an out-of-radix character. -/
def parseRadix (radix : Nat) : List Char → Option Nat
  | [] => none
  | [c] => radixVal radix c
  | c :: rest =>
    match radixVal radix c, parseRadix radix rest with
    | some d, some r => some (d * radix ^ rest.length + r)
    | _, _ => none

/-- JavaScript `NonDecimalIntegerLiteral`: `0x`/`0o`/`0b` prefixed
integers (no sign allowed). -/
def jsNonDecimalLit : List Char → Option JSNum
  | '0' :: c :: ds =>
    if c = 'x' ∨ c = 'X' then (parseRadix 16 ds).map (fun n => normDec n 0)
    else if c = 'o' ∨ c = 'O' then (parseRadix 8 ds).map (fun n => normDec n 0)
    else if c = 'b' ∨ c = 'B' then (parseRadix 2 ds).map (fun n => normDec n 0)
    else none
  | _ => none

/-- JavaScript `ToNumber` on a string: `some` value when the whole
trimmed text is a numeric literal (the empty/whitespace string converts
to `0`), `none` when conversion yields `NaN`. -/
def jsToNumberOpt (s : String) : Option JSNum :=
  let t := trimJS s.data
  if t.isEmpty then some (.dec 0 0)
  else
    match jsNonDecimalLit t with
    | some n => some n
    | none =>
      match t with
      | '+' :: r => jsDecimalLit r false
      | '-' :: r => jsDecimalLit r true
      | r => jsDecimalLit r false

/-- Whether the text starts (after the optional sign) like the literal
`Infinity`. -/
def startsWithInfinity (cs : List Char) : Bool :=
  cs.take 8 == ("Infinity".data)

/-- Whether JavaScript `parseFloat` finds a valid decimal prefix (its
result is non-`NaN`): after leading whitespace and an optional sign, the
text starts with a digit, a dot followed by a digit, or `Infinity`. -/
def parseFloatOk (s : String) : Bool :=
  let t := (s.data).dropWhile isWsChar
  let t2 := match t with
    | c :: r => if c = '+' ∨ c = '-' then r else t
    | [] => []
  match t2 with
  | [] => false
  | c :: r =>
    c.isDigit || (c == '.' && (match r with | d :: _ => d.isDigit | [] => false)) ||
      startsWithInfinity t2

mutual
/-- JSON-shaped JavaScript value: the scalar leaves `Null`, `undefined`,
`Bool`, `Number`, `String`, plus ordered arrays and objects (an object is
its ordered list of own-enumerable string-keyed entries, matching the
`for (const key in data)` / `hasOwnProperty` traversal of the source;
inherited properties have no counterpart in the model). -/
inductive JSValue where
  | null
  | undef
  | bool (b : Bool)
  | num (n : JSNum)
  | str (s : String)
  | arr (xs : JSList)
  | obj (fs : JSFields)
/-- Ordered array elements. -/
inductive JSList where
  | nil
  | cons (hd : JSValue) (tl : JSList)
/-- Ordered object entries. -/
inductive JSFields where
  | fnil
  | fcons (key : String) (val : JSValue) (tl : JSFields)
end

deriving instance DecidableEq for JSValue

/-- JavaScript `String(value)` on the values the codec stringifies
(`const stringValue = String(value)` in `encryptValue`).  The tree walker
only ever sends scalars here; the container cases are unreachable from
`encryptJsonObject` and approximated. -/
def canonicalString : JSValue → String
  | .null => "null"
  | .undef => "undefined"
  | .bool true => "true"
  | .bool false => "false"
  | .num n => numToString n
  | .str s => s
  | .arr _ => ""
  | .obj _ => "[object Object]"

/-- Modelled from the spec: the UTF-8 byte serialization of the canonical
string (`Buffer`/`utf8` handling inside Node `crypto`, not part of this
repository).  Idealized as an injective fixed-width serialization: each
character becomes three bytes, little-endian over its code point.  The
byte-level details of real UTF-8 do not affect the codec logic; only
injectivity and invertibility are used. -/
def charTriple (c : Char) : List Nat :=
  [c.toNat % 256, c.toNat / 256 % 256, c.toNat / 65536]

/-- Byte serialization of a string (see `charTriple`). -/
def strBytes (s : String) : List Nat := (s.data.map charTriple).flatten

/-- Partial inverse of `strBytes`: groups of three bytes back to
characters, `none` on byte lists that are not a valid serialization. -/
def bytesChars : List Nat → Option (List Char)
  | [] => some []
  | b0 :: b1 :: b2 :: rest =>
    let n := b0 + 256 * b1 + 65536 * b2
    if n.isValidChar then
      match bytesChars rest with
      | some cs => some (Char.ofNat n :: cs)
      | none => none
    else none
  | _ => none

/-- Base64 alphabet character of a 6-bit value. -/
def b64Char (v : Nat) : Char :=
  if v < 26 then Char.ofNat (65 + v)
  else if v < 52 then Char.ofNat (97 + (v - 26))
  else if v < 62 then Char.ofNat (48 + (v - 52))
  else if v = 62 then '+' else '/'

/-- Value of a base64 alphabet character (`none` for padding and
non-alphabet characters). -/
def b64Val (c : Char) : Option Nat :=
  let n := c.toNat
  if 65 ≤ n ∧ n ≤ 90 then some (n - 65)
  else if 97 ≤ n ∧ n ≤ 122 then some (n - 97 + 26)
  else if 48 ≤ n ∧ n ≤ 57 then some (n - 48 + 52)
  else if n = 43 then some 62
  else if n = 47 then some 63
  else none

/-- Modelled from the spec: standard base64 encoding with `=` padding
(the `base64` output encoding of Node `Buffer`, not part of this
repository). -/
def b64encodeList : List Nat → List Char
  | [] => []
  | [b] => [b64Char (b / 4), b64Char (b % 4 * 16), '=', '=']
  | [b, c] => [b64Char (b / 4), b64Char (b % 4 * 16 + c / 16), b64Char (c % 16 * 4), '=']
  | b :: c :: d :: rest =>
    b64Char (b / 4) :: b64Char (b % 4 * 16 + c / 16) ::
      b64Char (c % 16 * 4 + d / 64) :: b64Char (d % 64) :: b64encodeList rest

/-- Bit-repacking of a list of 6-bit values into bytes, dropping a
trailing group that carries no full byte. -/
def b64decodeVals : List Nat → List Nat
  | v1 :: v2 :: v3 :: v4 :: rest =>
    (v1 * 4 + v2 / 16) :: (v2 % 16 * 16 + v3 / 4) :: (v3 % 4 * 64 + v4) ::
      b64decodeVals rest
  | [v1, v2] => [v1 * 4 + v2 / 16]
  | [v1, v2, v3] => [v1 * 4 + v2 / 16, v2 % 16 * 16 + v3 / 4]
  | _ => []

/-- Modelled from the spec: strict base64 decoding (`malformed base64`
signals `DecryptionError` per the spec).  A string decodes exactly when
it is the canonical encoding of some byte list; the guard makes
`b64decodeStrict cs = some bs → b64encodeList bs = cs` hold by
construction. -/
def b64decodeStrict (cs : List Char) : Option (List Nat) :=
  let bs := b64decodeVals (cs.filterMap b64Val)
  if b64encodeList bs = cs then some bs else none

/-- Modelled from the spec: the deterministic keystream of the AEAD
primitive (AES-256-GCM is CTR encryption plus a tag; the block cipher
itself is not part of this repository).  Any concrete byte-valued
function of key, IV and position serves the model. -/
def keystream (key iv : List Nat) (i : Nat) : Nat :=
  (key.sum + 3 * iv.sum + 5 * i + 7) % 256

/-- CTR-style encryption/decryption: XOR each byte with the keystream at
its position.  Self-inverse, as in GCM. -/
def xorKs (key iv : List Nat) : Nat → List Nat → List Nat
  | _, [] => []
  | i, b :: rest => (b ^^^ keystream key iv i) :: xorKs key iv (i + 1) rest

/-- Modelled from the spec: the authentication tag of the AEAD primitive
over the ciphertext.  Idealized as collision-free (injective in the
ciphertext); the fixed 128-bit width of the real GCM tag is a property of
the platform primitive outside this repository. -/
def mac (key iv ct : List Nat) : List Nat :=
  ct ++ [(key.sum + iv.sum + ct.length + 1) % 256]

/-- The value-level encrypt of the source (`encryptValue`): stringify the
scalar, encrypt its bytes, and return
`base64(ciphertext) ++ "." ++ base64(authTag)`.  With the 32-byte key and
16-byte IV guaranteed by initialization the cipher cannot fail, so the
source's try/catch re-throw is not represented and the function is
total. -/
def encryptValue (key iv : List Nat) (v : JSValue) : String :=
  let ct := xorKs key iv 0 (strBytes (canonicalString v))
  String.mk (b64encodeList ct ++ '.' :: b64encodeList (mac key iv ct))

/-- Splitting on `'.'`, as JavaScript `encryptedString.split('.')`. -/
def splitDot : List Char → List (List Char)
  | [] => [[]]
  | c :: rest =>
    if c = '.' then [] :: splitDot rest
    else
      match splitDot rest with
      | [] => [[c]]
      | g :: gs => (c :: g) :: gs

/-- The type-recovery heuristic applied by `decryptValue` to the
recovered text: literal `null` / `true` / `false`, then the numeric check
`!isNaN(decrypted) && !isNaN(parseFloat(decrypted))` guarded by
`decrypted.trim() !== ''`, else the text itself. -/
def recoverScalar (t : String) : JSValue :=
  if t = "null" then .null
  else if t = "true" then .bool true
  else if t = "false" then .bool false
  else
    match jsToNumberOpt t with
    | some n => if parseFloatOk t && !(trimJS t.data).isEmpty then .num n else .str t
    | none => .str t

/-- The value-level decrypt of the source (`decryptValue`): non-strings
and strings without `'.'` or without exactly two `'.'`-separated parts
are returned unchanged; otherwise both parts are base64-decoded, the tag
is verified, and the recovered text goes through `recoverScalar`.  Every
failure inside the try block (malformed base64, tag mismatch, bad byte
serialization) is the source's re-thrown `DecryptionError`. -/
def decryptValue (key iv : List Nat) (v : JSValue) : Except CodecError JSValue :=
  match v with
  | .str s =>
    if '.' ∈ s.data then
      match splitDot s.data with
      | [encPart, tagPart] =>
        match b64decodeStrict tagPart with
        | none => .error .decryptionError
        | some authTag =>
          match b64decodeStrict encPart with
          | none => .error .decryptionError
          | some ct =>
            if mac key iv ct = authTag then
              match bytesChars (xorKs key iv 0 ct) with
              | some cs => .ok (recoverScalar (String.mk cs))
              | none => .error .decryptionError
            else .error .decryptionError
      | _ => .ok (.str s)
    else .ok (.str s)
  | other => .ok other

mutual
/-- The encrypt-side tree walker body (`encryptJsonObject` below the
keys guard): scalars (including `null`) go through `encryptValue`,
`undefined` is preserved, arrays and objects are rebuilt entry by
entry.  Total, because `encryptValue` is. -/
def encTree (key iv : List Nat) : JSValue → JSValue
  | .null => .str (encryptValue key iv .null)
  | .undef => .undef
  | .bool b => .str (encryptValue key iv (.bool b))
  | .num n => .str (encryptValue key iv (.num n))
  | .str s => .str (encryptValue key iv (.str s))
  | .arr xs => .arr (encTreeL key iv xs)
  | .obj fs => .obj (encTreeF key iv fs)
/-- Array part of the encrypt walker (`data.map(item => encryptJsonObject(item))`). -/
def encTreeL (key iv : List Nat) : JSList → JSList
  | .nil => .nil
  | .cons x xs => .cons (encTree key iv x) (encTreeL key iv xs)
/-- Object part of the encrypt walker (own-enumerable entries in order). -/
def encTreeF (key iv : List Nat) : JSFields → JSFields
  | .fnil => .fnil
  | .fcons k v fs => .fcons k (encTree key iv v) (encTreeF key iv fs)
end

mutual
/-- The decrypt-side tree walker body (`decryptJsonObject` below the
keys guard): `null` and non-string scalars pass through, strings go to
`decryptValue`, containers recurse entry by entry.  The walker has no
catch: the first leaf error aborts the whole traversal. -/
def decTree (key iv : List Nat) : JSValue → Except CodecError JSValue
  | .null => .ok .null
  | .undef => .ok .undef
  | .bool b => .ok (.bool b)
  | .num n => .ok (.num n)
  | .str s => decryptValue key iv (.str s)
  | .arr xs =>
    match decTreeL key iv xs with
    | .ok ys => .ok (.arr ys)
    | .error e => .error e
  | .obj fs =>
    match decTreeF key iv fs with
    | .ok gs => .ok (.obj gs)
    | .error e => .error e
/-- Array part of the decrypt walker. -/
def decTreeL (key iv : List Nat) : JSList → Except CodecError JSList
  | .nil => .ok .nil
  | .cons x xs =>
    match decTree key iv x with
    | .error e => .error e
    | .ok y =>
      match decTreeL key iv xs with
      | .error e => .error e
      | .ok ys => .ok (.cons y ys)
/-- Object part of the decrypt walker. -/
def decTreeF (key iv : List Nat) : JSFields → Except CodecError JSFields
  | .fnil => .ok .fnil
  | .fcons k v fs =>
    match decTree key iv v with
    | .error e => .error e
    | .ok w =>
      match decTreeF key iv fs with
      | .error e => .error e
      | .ok gs => .ok (.fcons k w gs)
end

/-- The module-level mutable key state of the source (`let encryptionKey
= null; let encryptionIv = null;`); `none` models `null`, `some bytes` a
decoded `Buffer` (Buffers are always truthy, so the source's `!key`
checks are exactly `Option.isNone` here). -/
structure ModuleState where
  encryptionKey : Option (List Nat)
  encryptionIv : Option (List Nat)
deriving DecidableEq

/-- Value of a hexadecimal digit character. -/
def hexVal (c : Char) : Option Nat :=
  let n := c.toNat
  if 48 ≤ n ∧ n ≤ 57 then some (n - 48)
  else if 97 ≤ n ∧ n ≤ 102 then some (n - 97 + 10)
  else if 65 ≤ n ∧ n ≤ 70 then some (n - 65 + 10)
  else none

/-- Modelled from the spec: strict hex decoding of key material
(`Buffer.from(env, 'hex')`; the spec makes any non-hexadecimal input a
`ConfigurationError`, so the model rejects odd length and invalid
characters rather than reproducing Node's silent truncation). -/
def hexDecodeAux : List Char → Option (List Nat)
  | [] => some []
  | a :: b :: rest =>
    match hexVal a, hexVal b, hexDecodeAux rest with
    | some x, some y, some bs => some ((x * 16 + y) :: bs)
    | _, _, _ => none
  | [_] => none

/-- Strict hex decoding of a string (see `hexDecodeAux`). -/
def hexDecode (s : String) : Option (List Nat) := hexDecodeAux s.data

/-- The source's `initializeEncryptionKeys`, with the two environment
variables passed explicitly (`none` models an unset variable; the empty
string is falsy in JavaScript and takes the same missing-configuration
branch).  Returns the resulting module state together with the raised
error, if any: every failure path of the source nulls both module
variables before throwing its `Configuration Error`. -/
def initializeEncryptionKeys (envKey envIv : Option String) :
    ModuleState × Option CodecError :=
  match envKey, envIv with
  | some ks, some ivs =>
    if ks = "" ∨ ivs = "" then (⟨none, none⟩, some .configurationError)
    else
      match hexDecode ks with
      | none => (⟨none, none⟩, some .configurationError)
      | some key =>
        if key.length ≠ 32 then (⟨none, none⟩, some .configurationError)
        else
          match hexDecode ivs with
          | none => (⟨none, none⟩, some .configurationError)
          | some iv =>
            if iv.length ≠ 16 then (⟨none, none⟩, some .configurationError)
            else (⟨some key, some iv⟩, none)
  | _, _ => (⟨none, none⟩, some .configurationError)

/-- The exported `encryptJsonObject`: the keys-configured guard throws
an `Encryption Error` when either module variable is `null`, otherwise
the walker runs (and, with valid key material, cannot fail). -/
def encryptJsonObject (st : ModuleState) (v : JSValue) : Except CodecError JSValue :=
  match st.encryptionKey, st.encryptionIv with
  | some key, some iv => .ok (encTree key iv v)
  | _, _ => .error .encryptionError

/-- The exported `decryptJsonObject`: the keys-configured guard throws
a `Decryption Error` when either module variable is `null`, otherwise
the walker runs and the first leaf failure aborts the call. -/
def decryptJsonObject (st : ModuleState) (v : JSValue) : Except CodecError JSValue :=
  match st.encryptionKey, st.encryptionIv with
  | some key, some iv => decTree key iv v
  | _, _ => .error .decryptionError

/-- Whether a value is one of the four scalar kinds named by the spec
(`Null`, `Bool`, `Number`, `String`). -/
def isScalar : JSValue → Bool
  | .null => true
  | .bool _ => true
  | .num _ => true
  | .str _ => true
  | _ => false

/-- Whether a value is a string. -/
def isStringVal : JSValue → Bool
  | .str _ => true
  | _ => false

/-- A scalar leaf survives the value-level round trip when the
type-recovery heuristic applied to its canonical string returns the leaf
itself.  `Null` and both `Bool`s always do; a normalized non-`NaN`
`Number` does; a `String` does exactly when it is not itself recovered
as another scalar. -/
def stableLeaf : JSValue → Bool
  | .null => true
  | .bool _ => true
  | .num n =>
    match recoverScalar (numToString n) with
    | .num m => m == n
    | _ => false
  | .str s =>
    match recoverScalar s with
    | .str t => t == s
    | _ => false
  | _ => false

mutual
/-- Trees whose leaves are only `Null`/`Bool`/`Number`/`String` scalars
that survive the value-level round trip (see `stableLeaf`). -/
def goodTree : JSValue → Bool
  | .arr xs => goodTreeL xs
  | .obj fs => goodTreeF fs
  | v => stableLeaf v
/-- Array part of `goodTree`. -/
def goodTreeL : JSList → Bool
  | .nil => true
  | .cons x xs => goodTree x && goodTreeL xs
/-- Object part of `goodTree`. -/
def goodTreeF : JSFields → Bool
  | .fnil => true
  | .fcons _ v fs => goodTree v && goodTreeF fs
end

mutual
/-- Modelled from the spec (shape preservation): the encrypted tree is
structurally identical to the source tree — objects keep the same keys
in the same order, arrays the same length and element order — and every
scalar leaf is replaced by exactly its `encryptValue` wire string, while
`undefined` leaves pass through. -/
def wireShape (key iv : List Nat) : JSValue → JSValue → Bool
  | .null, .str w => w == encryptValue key iv .null
  | .bool b, .str w => w == encryptValue key iv (.bool b)
  | .num n, .str w => w == encryptValue key iv (.num n)
  | .str s, .str w => w == encryptValue key iv (.str s)
  | .undef, .undef => true
  | .arr xs, .arr ys => wireShapeL key iv xs ys
  | .obj fs, .obj gs => wireShapeF key iv fs gs
  | _, _ => false
/-- Array part of `wireShape`: equal lengths, element-wise related. -/
def wireShapeL (key iv : List Nat) : JSList → JSList → Bool
  | .nil, .nil => true
  | .cons x xs, .cons y ys => wireShape key iv x y && wireShapeL key iv xs ys
  | _, _ => false
/-- Object part of `wireShape`: equal keys in order, value-wise related. -/
def wireShapeF (key iv : List Nat) : JSFields → JSFields → Bool
  | .fnil, .fnil => true
  | .fcons k v fs, .fcons k2 w gs =>
    k == k2 && wireShape key iv v w && wireShapeF key iv fs gs
  | _, _ => false
end

mutual
/-- Whether some string leaf of the tree makes `decryptValue` raise (the
walker applies `decryptValue` exactly to string leaves). -/
def anyLeafFails (key iv : List Nat) : JSValue → Bool
  | .str s =>
    match decryptValue key iv (.str s) with
    | .error _ => true
    | .ok _ => false
  | .arr xs => anyLeafFailsL key iv xs
  | .obj fs => anyLeafFailsF key iv fs
  | _ => false
/-- Array part of `anyLeafFails`. -/
def anyLeafFailsL (key iv : List Nat) : JSList → Bool
  | .nil => false
  | .cons x xs => anyLeafFails key iv x || anyLeafFailsL key iv xs
/-- Object part of `anyLeafFails`. -/
def anyLeafFailsF (key iv : List Nat) : JSFields → Bool
  | .fnil => false
  | .fcons _ v fs => anyLeafFails key iv v || anyLeafFailsF key iv fs
end

/-- Modelled from the spec (amended C2 wording): the recovery mapping in
its stated priority order — literal `null`, then the `Bool` literals,
then the numeric check (`ToNumber` succeeds, `parseFloat` succeeds, the
trimmed text is nonempty — this includes `Infinity` and `-Infinity`;
only conversion to `NaN` is excluded), else the text verbatim. -/
def recoverSpecified (t : String) : JSValue :=
  if t = "null" then .null
  else if t = "true" then .bool true
  else if t = "false" then .bool false
  else if ((jsToNumberOpt t).isSome && parseFloatOk t && !(trimJS t.data).isEmpty) = true then
    .num ((jsToNumberOpt t).getD .nan)
  else .str t

/-- Modelled from the spec (C6 wording): initialization succeeds exactly
when both inputs are present, nonempty, strictly hexadecimal, and decode
to 32 key bytes and 16 IV bytes. -/
def initOk (envKey envIv : Option String) : Bool :=
  match envKey, envIv with
  | some ks, some ivs =>
    ks ≠ "" && ivs ≠ "" &&
      (match hexDecode ks with
       | some k => k.length == 32
       | none => false) &&
      (match hexDecode ivs with
       | some i => i.length == 16
       | none => false)
  | _, _ => false

/-- Flip one bit (position `j`) of the code point of a character; for
the ASCII characters of a wire string and `j < 8` this is exactly a
single-bit corruption of the underlying byte. -/
def flipCharBit (j : Nat) (c : Char) : Char := Char.ofNat (c.toNat ^^^ 2 ^ j)

/-- Flip bit `j` of the character at position `i`. -/
def flipAt : List Char → Nat → Nat → List Char
  | [], _, _ => []
  | c :: rest, 0, j => flipCharBit j c :: rest
  | c :: rest, i + 1, j => c :: flipAt rest i j

/-- A fixed 32-byte key for concrete instances. -/
def key0 : List Nat := List.replicate 32 7

/-- A fixed 16-byte IV for concrete instances. -/
def iv0 : List Nat := List.replicate 16 3

/-- A 32-byte key chosen so that the first wire-string character of
`encryptValue key1 iv1 JSValue.null` is `'/'` (one ASCII bit away from
the `'.'` delimiter). -/
def key1 : List Nat := List.replicate 31 0 ++ [139]

/-- The all-zero 16-byte IV paired with `key1`. -/
def iv1 : List Nat := List.replicate 16 0

/-- Module state holding `key0`/`iv0`, as produced by a successful
initialization. -/
def st0 : ModuleState := ⟨some key0, some iv0⟩

/-- A nested sample tree with all four scalar kinds, an empty object, an
empty array, and an array containing an object containing an array. -/
def sampleTree : JSValue :=
  .obj (.fcons "name" (.str "A")
    (.fcons "age" (.num (.dec 42 0))
      (.fcons "flag" (.bool true)
        (.fcons "n" .null
          (.fcons "empty" (.obj .fnil)
            (.fcons "items"
              (.arr (.cons (.str "x")
                (.cons (.num (.dec (-125) (-1)))
                  (.cons (.obj (.fcons "inner" (.arr (.cons .null .nil)) .fnil))
                    (.cons (.arr .nil) .nil)))))
              .fnil))))))

theorem char_toNat_lt (c : Char) : c.toNat < 1114112 := by
  have h := c.valid
  simp only [Char.toNat] at *
  rcases h with h | h <;> omega

theorem char_isValidChar_toNat (c : Char) : Nat.isValidChar c.toNat := c.valid

theorem char_toNat_ofNat {n : Nat} (h : Nat.isValidChar n) : (Char.ofNat n).toNat = n := by
  simp only [Char.ofNat, dif_pos h]
  rfl

theorem string_mk_data (s : String) : String.mk s.data = s := by
  cases s
  rfl

theorem charTriple_lt (c : Char) : ∀ x ∈ charTriple c, x < 256 := by
  have h := char_toNat_lt c
  intro x hx
  simp only [charTriple, List.mem_cons, List.not_mem_nil, or_false] at hx
  rcases hx with rfl | rfl | rfl <;> omega

theorem strBytes_lt (s : String) : ∀ x ∈ strBytes s, x < 256 := by
  intro x hx
  simp only [strBytes, List.mem_flatten, List.mem_map] at hx
  obtain ⟨l, ⟨c, _, rfl⟩, hxl⟩ := hx
  exact charTriple_lt c x hxl

theorem bytesChars_strBytes (s : String) : bytesChars (strBytes s) = some s.data := by
  suffices h : ∀ cs : List Char, bytesChars ((cs.map charTriple).flatten) = some cs by
    simpa [strBytes] using h s.data
  intro cs
  induction cs with
  | nil => rfl
  | cons c rest ih =>
    have hval : Nat.isValidChar c.toNat := char_isValidChar_toNat c
    have hlt := char_toNat_lt c
    have hn : c.toNat % 256 + 256 * (c.toNat / 256 % 256) + 65536 * (c.toNat / 65536) =
        c.toNat := by omega
    simp only [List.map_cons, List.flatten_cons, charTriple, List.cons_append,
      List.nil_append, bytesChars, hn, hval, if_true, ih]
    simp only [List.append_eq, List.nil_append, ih]
    rw [Char.ofNat_toNat]

theorem keystream_lt (key iv : List Nat) (i : Nat) : keystream key iv i < 256 := by
  simp only [keystream]
  omega

theorem xorKs_xorKs (key iv : List Nat) (i : Nat) (bs : List Nat) :
    xorKs key iv i (xorKs key iv i bs) = bs := by
  induction bs generalizing i with
  | nil => rfl
  | cons b rest ih => simp [xorKs, Nat.xor_cancel_right, ih]

theorem xorKs_lt (key iv : List Nat) (i : Nat) (bs : List Nat)
    (h : ∀ x ∈ bs, x < 256) : ∀ x ∈ xorKs key iv i bs, x < 256 := by
  induction bs generalizing i with
  | nil => simp [xorKs]
  | cons b rest ih =>
    simp only [xorKs, List.mem_cons]
    rintro x (rfl | hx)
    · have hb : b < 2 ^ 8 := by
        have := h b (List.mem_cons_self b rest)
        omega
      have hk : keystream key iv i < 2 ^ 8 := by
        have := keystream_lt key iv i
        omega
      have := Nat.xor_lt_two_pow hb hk
      omega
    · exact ih (i + 1) (fun y hy => h y (List.mem_cons_of_mem _ hy)) x hx

theorem xorKs_eq_nil_iff (key iv : List Nat) (i : Nat) (bs : List Nat) :
    xorKs key iv i bs = [] ↔ bs = [] := by
  cases bs <;> simp [xorKs]

theorem mac_ne_nil (key iv ct : List Nat) : mac key iv ct ≠ [] := by
  simp [mac]

theorem mac_lt (key iv ct : List Nat) (h : ∀ x ∈ ct, x < 256) :
    ∀ x ∈ mac key iv ct, x < 256 := by
  intro x hx
  simp only [mac, List.mem_append, List.mem_singleton] at hx
  rcases hx with hx | rfl
  · exact h x hx
  · omega

theorem mac_inj (key iv : List Nat) {a b : List Nat}
    (h : mac key iv a = mac key iv b) : a = b := by
  have hl : a.length = b.length := by
    have hlen := congrArg List.length h
    simpa [mac] using hlen
  exact (List.append_inj h hl).1

theorem b64Val_b64Char : ∀ v, v < 64 → b64Val (b64Char v) = some v := by decide

theorem b64Char_ne_dot : ∀ v, v < 64 → b64Char v ≠ '.' := by decide

theorem b64Char_ascii : ∀ v, v < 64 → (b64Char v).toNat < 128 := by decide

theorem b64Val_pad : b64Val '=' = none := by decide

theorem mul_add_div_small {a r k : Nat} (hk : 0 < k) (hr : r < k) : (a * k + r) / k = a := by
  rw [Nat.mul_comm a k, Nat.mul_add_div hk, Nat.div_eq_of_lt hr, Nat.add_zero]

theorem mul_add_mod_small {a r k : Nat} (hr : r < k) : (a * k + r) % k = r := by
  rw [Nat.mul_comm a k, Nat.mul_add_mod, Nat.mod_eq_of_lt hr]

theorem pad_facts : '=' ≠ '.' ∧ ('=').toNat < 128 := by decide

theorem b64encodeList_mem : ∀ (bs : List Nat), (∀ x ∈ bs, x < 256) →
    ∀ c ∈ b64encodeList bs, c ≠ '.' ∧ c.toNat < 128
  | [], _ => by
    intro c hc
    simp [b64encodeList] at hc
  | [b], h => by
    intro c hc
    have hb : b < 256 := h b (List.mem_singleton.mpr rfl)
    have h1 : b / 4 < 64 := by omega
    have h2 : b % 4 * 16 < 64 := by omega
    simp only [b64encodeList, List.mem_cons, List.not_mem_nil, or_false] at hc
    rcases hc with rfl | rfl | rfl | rfl
    · exact ⟨b64Char_ne_dot _ h1, by have := b64Char_ascii _ h1; omega⟩
    · exact ⟨b64Char_ne_dot _ h2, by have := b64Char_ascii _ h2; omega⟩
    · exact pad_facts
    · exact pad_facts
  | [b, c0], h => by
    intro c hc
    have hb : b < 256 := h b (List.mem_cons_self _ _)
    have hc0 : c0 < 256 := h c0 (List.mem_cons_of_mem _ (List.mem_singleton.mpr rfl))
    have h1 : b / 4 < 64 := by omega
    have h2 : b % 4 * 16 + c0 / 16 < 64 := by omega
    have h3 : c0 % 16 * 4 < 64 := by omega
    simp only [b64encodeList, List.mem_cons, List.not_mem_nil, or_false] at hc
    rcases hc with rfl | rfl | rfl | rfl
    · exact ⟨b64Char_ne_dot _ h1, by have := b64Char_ascii _ h1; omega⟩
    · exact ⟨b64Char_ne_dot _ h2, by have := b64Char_ascii _ h2; omega⟩
    · exact ⟨b64Char_ne_dot _ h3, by have := b64Char_ascii _ h3; omega⟩
    · exact pad_facts
  | b :: c0 :: d :: rest, h => by
    intro c hc
    have hb : b < 256 := h b (List.mem_cons_self _ _)
    have hc0 : c0 < 256 := h c0 (List.mem_cons_of_mem _ (List.mem_cons_self _ _))
    have hd : d < 256 :=
      h d (List.mem_cons_of_mem _ (List.mem_cons_of_mem _ (List.mem_cons_self _ _)))
    have h1 : b / 4 < 64 := by omega
    have h2 : b % 4 * 16 + c0 / 16 < 64 := by omega
    have h3 : c0 % 16 * 4 + d / 64 < 64 := by omega
    have h4 : d % 64 < 64 := by omega
    simp only [b64encodeList, List.mem_cons] at hc
    rcases hc with rfl | rfl | rfl | rfl | hc
    · exact ⟨b64Char_ne_dot _ h1, by have := b64Char_ascii _ h1; omega⟩
    · exact ⟨b64Char_ne_dot _ h2, by have := b64Char_ascii _ h2; omega⟩
    · exact ⟨b64Char_ne_dot _ h3, by have := b64Char_ascii _ h3; omega⟩
    · exact ⟨b64Char_ne_dot _ h4, by have := b64Char_ascii _ h4; omega⟩
    · exact b64encodeList_mem rest
        (fun x hx => h x (List.mem_cons_of_mem _ (List.mem_cons_of_mem _ (List.mem_cons_of_mem _ hx))))
        c hc

theorem b64encode_not_dot (bs : List Nat) (h : ∀ x ∈ bs, x < 256) :
    '.' ∉ b64encodeList bs := fun hc => (b64encodeList_mem bs h '.' hc).1 rfl

theorem b64decode_encode : ∀ (bs : List Nat), (∀ x ∈ bs, x < 256) →
    b64decodeVals ((b64encodeList bs).filterMap b64Val) = bs
  | [], _ => rfl
  | [b], h => by
    have hb : b < 256 := h b (List.mem_singleton.mpr rfl)
    have h1 : b / 4 < 64 := by omega
    have h2 : b % 4 * 16 < 64 := by omega
    simp only [b64encodeList, List.filterMap_cons, b64Val_b64Char _ h1,
      b64Val_b64Char _ h2, b64Val_pad, List.filterMap_nil]
    simp only [b64decodeVals]
    have hv : b / 4 * 4 + b % 4 * 16 / 16 = b := by
      rw [Nat.mul_div_cancel _ (by omega : (0:Nat) < 16)]
      omega
    rw [hv]
  | [b, c0], h => by
    have hb : b < 256 := h b (List.mem_cons_self _ _)
    have hc0 : c0 < 256 := h c0 (List.mem_cons_of_mem _ (List.mem_singleton.mpr rfl))
    have h1 : b / 4 < 64 := by omega
    have h2 : b % 4 * 16 + c0 / 16 < 64 := by omega
    have h3 : c0 % 16 * 4 < 64 := by omega
    simp only [b64encodeList, List.filterMap_cons, b64Val_b64Char _ h1,
      b64Val_b64Char _ h2, b64Val_b64Char _ h3, b64Val_pad, List.filterMap_nil]
    simp only [b64decodeVals]
    have h16 : c0 / 16 < 16 := by omega
    have hv1 : b / 4 * 4 + (b % 4 * 16 + c0 / 16) / 16 = b := by
      rw [mul_add_div_small (by omega) h16]
      omega
    have hv2 : (b % 4 * 16 + c0 / 16) % 16 * 16 + c0 % 16 * 4 / 4 = c0 := by
      rw [mul_add_mod_small h16, Nat.mul_div_cancel _ (by omega : (0:Nat) < 4)]
      omega
    rw [hv1, hv2]
  | b :: c0 :: d :: rest, h => by
    have hb : b < 256 := h b (List.mem_cons_self _ _)
    have hc0 : c0 < 256 := h c0 (List.mem_cons_of_mem _ (List.mem_cons_self _ _))
    have hd : d < 256 :=
      h d (List.mem_cons_of_mem _ (List.mem_cons_of_mem _ (List.mem_cons_self _ _)))
    have h1 : b / 4 < 64 := by omega
    have h2 : b % 4 * 16 + c0 / 16 < 64 := by omega
    have h3 : c0 % 16 * 4 + d / 64 < 64 := by omega
    have h4 : d % 64 < 64 := by omega
    have ih := b64decode_encode rest
      (fun x hx => h x (List.mem_cons_of_mem _ (List.mem_cons_of_mem _ (List.mem_cons_of_mem _ hx))))
    simp only [b64encodeList, List.filterMap_cons, b64Val_b64Char _ h1,
      b64Val_b64Char _ h2, b64Val_b64Char _ h3, b64Val_b64Char _ h4]
    simp only [b64decodeVals, ih]
    have h16 : c0 / 16 < 16 := by omega
    have h64 : d / 64 < 4 := by omega
    have hv1 : b / 4 * 4 + (b % 4 * 16 + c0 / 16) / 16 = b := by
      rw [mul_add_div_small (by omega) h16]
      omega
    have hv2 : (b % 4 * 16 + c0 / 16) % 16 * 16 + (c0 % 16 * 4 + d / 64) / 4 = c0 := by
      rw [mul_add_mod_small h16, mul_add_div_small (by omega) h64]
      omega
    have hv3 : (c0 % 16 * 4 + d / 64) % 4 * 64 + d % 64 = d := by
      rw [mul_add_mod_small h64]
      omega
    rw [hv1, hv2, hv3]

theorem b64decodeStrict_encode (bs : List Nat) (h : ∀ x ∈ bs, x < 256) :
    b64decodeStrict (b64encodeList bs) = some bs := by
  simp [b64decodeStrict, b64decode_encode bs h]

theorem b64decodeStrict_sound {cs : List Char} {bs : List Nat}
    (h : b64decodeStrict cs = some bs) : b64encodeList bs = cs := by
  simp only [b64decodeStrict] at h
  split at h
  · next heq =>
    cases h
    exact heq
  · cases h

theorem splitDot_ne_nil (cs : List Char) : splitDot cs ≠ [] := by
  induction cs with
  | nil => simp [splitDot]
  | cons c rest ih =>
    by_cases hc : c = '.'
    · simp [splitDot, hc]
    · simp only [splitDot, if_neg hc]
      cases hsp : splitDot rest with
      | nil => simp
      | cons g gs => simp

theorem splitDot_no_dot {cs : List Char} (h : '.' ∉ cs) : splitDot cs = [cs] := by
  induction cs with
  | nil => rfl
  | cons c rest ih =>
    have hc : c ≠ '.' := by
      intro hceq
      exact h (hceq ▸ List.mem_cons_self c rest)
    have hrest : '.' ∉ rest := fun hm => h (List.mem_cons_of_mem _ hm)
    simp [splitDot, hc, ih hrest]

theorem splitDot_append {a b : List Char} (h : '.' ∉ a) :
    splitDot (a ++ '.' :: b) = a :: splitDot b := by
  induction a with
  | nil => simp [splitDot]
  | cons c rest ih =>
    have hc : c ≠ '.' := by
      intro hceq
      exact h (hceq ▸ List.mem_cons_self c rest)
    have hrest : '.' ∉ rest := fun hm => h (List.mem_cons_of_mem _ hm)
    simp [splitDot, hc, ih hrest]

theorem splitDot_two {a b : List Char} (ha : '.' ∉ a) (hb : '.' ∉ b) :
    splitDot (a ++ '.' :: b) = [a, b] := by
  rw [splitDot_append ha, splitDot_no_dot hb]

theorem splitDot_length (cs : List Char) : (splitDot cs).length = cs.count '.' + 1 := by
  induction cs with
  | nil => simp [splitDot]
  | cons c rest ih =>
    by_cases hc : c = '.'
    · subst hc
      simp [splitDot, ih, List.count_cons]
    · simp only [splitDot, if_neg hc]
      cases hsp : splitDot rest with
      | nil => exact absurd hsp (splitDot_ne_nil rest)
      | cons g gs =>
        have : (g :: gs).length = rest.count '.' + 1 := hsp ▸ ih
        simp only [List.length_cons] at this ⊢
        simp [List.count_cons, hc, this]

theorem decryptValue_encryptValue (key iv : List Nat) (v : JSValue) :
    decryptValue key iv (.str (encryptValue key iv v)) =
      .ok (recoverScalar (canonicalString v)) := by
  have hptlt := strBytes_lt (canonicalString v)
  have hctlt := xorKs_lt key iv 0 _ hptlt
  have htglt := mac_lt key iv _ hctlt
  have hAdot : '.' ∉ b64encodeList (xorKs key iv 0 (strBytes (canonicalString v))) :=
    b64encode_not_dot _ hctlt
  have hBdot :
      '.' ∉ b64encodeList (mac key iv (xorKs key iv 0 (strBytes (canonicalString v)))) :=
    b64encode_not_dot _ htglt
  have hmem :
      '.' ∈ b64encodeList (xorKs key iv 0 (strBytes (canonicalString v))) ++
        '.' :: b64encodeList (mac key iv (xorKs key iv 0 (strBytes (canonicalString v)))) :=
    List.mem_append_right _ (List.mem_cons_self _ _)
  simp only [encryptValue, decryptValue, hmem, if_true, splitDot_two hAdot hBdot,
    b64decodeStrict_encode _ htglt, b64decodeStrict_encode _ hctlt, if_pos rfl,
    xorKs_xorKs, bytesChars_strBytes, string_mk_data]

theorem stableLeaf_recover {v : JSValue} (h : stableLeaf v = true) :
    recoverScalar (canonicalString v) = v := by
  cases v with
  | null => rfl
  | bool b => cases b <;> rfl
  | num n =>
    simp only [stableLeaf] at h
    cases hrec : recoverScalar (numToString n) with
    | num m =>
      rw [hrec] at h
      simp only [beq_iff_eq] at h
      subst h
      exact hrec
    | null => rw [hrec] at h; cases h
    | undef => rw [hrec] at h; cases h
    | bool b => rw [hrec] at h; cases h
    | str s => rw [hrec] at h; cases h
    | arr xs => rw [hrec] at h; cases h
    | obj fs => rw [hrec] at h; cases h
  | str s =>
    simp only [stableLeaf] at h
    cases hrec : recoverScalar s with
    | str t =>
      rw [hrec] at h
      simp only [beq_iff_eq] at h
      subst h
      exact hrec
    | null => rw [hrec] at h; cases h
    | undef => rw [hrec] at h; cases h
    | bool b => rw [hrec] at h; cases h
    | num m => rw [hrec] at h; cases h
    | arr xs => rw [hrec] at h; cases h
    | obj fs => rw [hrec] at h; cases h
  | undef => cases h
  | arr xs => cases h
  | obj fs => cases h

mutual
theorem roundTripVal (key iv : List Nat) (v : JSValue) (h : goodTree v = true) :
    decTree key iv (encTree key iv v) = .ok v := by
  cases v with
  | null =>
    simp only [encTree, decTree, decryptValue_encryptValue]
    rw [stableLeaf_recover (by simpa [goodTree] using h)]
  | undef => cases h
  | bool b =>
    simp only [encTree, decTree, decryptValue_encryptValue]
    rw [stableLeaf_recover (by simpa [goodTree] using h)]
  | num n =>
    simp only [encTree, decTree, decryptValue_encryptValue]
    rw [stableLeaf_recover (by simpa [goodTree] using h)]
  | str s =>
    simp only [encTree, decTree, decryptValue_encryptValue]
    rw [stableLeaf_recover (by simpa [goodTree] using h)]
  | arr xs =>
    have hxs : goodTreeL xs = true := by simpa [goodTree] using h
    simp only [encTree, decTree, roundTripList key iv xs hxs]
  | obj fs =>
    have hfs : goodTreeF fs = true := by simpa [goodTree] using h
    simp only [encTree, decTree, roundTripFields key iv fs hfs]
theorem roundTripList (key iv : List Nat) (xs : JSList) (h : goodTreeL xs = true) :
    decTreeL key iv (encTreeL key iv xs) = .ok xs := by
  cases xs with
  | nil => rfl
  | cons x rest =>
    have h1 : goodTree x = true := by
      simp only [goodTreeL, Bool.and_eq_true] at h
      exact h.1
    have h2 : goodTreeL rest = true := by
      simp only [goodTreeL, Bool.and_eq_true] at h
      exact h.2
    simp only [encTreeL, decTreeL, roundTripVal key iv x h1, roundTripList key iv rest h2]
theorem roundTripFields (key iv : List Nat) (fs : JSFields) (h : goodTreeF fs = true) :
    decTreeF key iv (encTreeF key iv fs) = .ok fs := by
  cases fs with
  | fnil => rfl
  | fcons k v rest =>
    have h1 : goodTree v = true := by
      simp only [goodTreeF, Bool.and_eq_true] at h
      exact h.1
    have h2 : goodTreeF rest = true := by
      simp only [goodTreeF, Bool.and_eq_true] at h
      exact h.2
    simp only [encTreeF, decTreeF, roundTripVal key iv v h1, roundTripFields key iv rest h2]
end

/-- C1 (amended): for every acyclic tree whose leaves are only Null,
Bool, Number, or String scalars that are recovery-stable — the
type-recovery heuristic applied to the leaf's canonical string returns
the leaf itself; all Null and Bool leaves qualify, normalized non-NaN
Number leaves qualify, and a String leaf qualifies iff it is not itself
recovered as another scalar — decrypting the encryption of the tree
under the same key material returns the tree
(`decryptJsonObject(encryptJsonObject(T)) == T`), for empty objects,
empty arrays, flat objects, nested objects, arrays of mixed scalars, and
arrays containing objects containing arrays.  The stability restriction
is forced: the original claim fails on the String leaf `"true"` (see the
counterexample). -/
theorem c1_round_trip (key iv : List Nat) (t : JSValue) (h : goodTree t = true) :
    (encryptJsonObject ⟨some key, some iv⟩ t).bind
      (decryptJsonObject ⟨some key, some iv⟩) = .ok t :=
  roundTripVal key iv t h

/-- C1 witness: the concrete nested sample tree (all four scalar kinds,
an empty object, an empty array, an array containing an object
containing an array) is recovery-stable and round trips. -/
theorem c1_round_trip_witness :
    goodTree sampleTree = true ∧
      (encryptJsonObject st0 sampleTree).bind (decryptJsonObject st0) = .ok sampleTree :=
  ⟨by decide, c1_round_trip key0 iv0 sampleTree (by decide)⟩

/-- C1 counterexample: the tree consisting of the single String leaf
`"true"` satisfies the original claim's hypothesis (its only leaf is a
String), yet decrypting its encryption yields the Bool `true`, not the
original tree. -/
theorem c1_round_trip_counterexample :
    (encryptJsonObject st0 (.str "true")).bind (decryptJsonObject st0) = .ok (.bool true) ∧
      (encryptJsonObject st0 (.str "true")).bind (decryptJsonObject st0) ≠
        .ok (.str "true") := by
  constructor
  · rfl
  · intro hcontra
    rw [show (encryptJsonObject st0 (.str "true")).bind (decryptJsonObject st0) =
        .ok (.bool true) from rfl] at hcontra
    cases hcontra

theorem recoverScalar_eq_specified (t : String) : recoverScalar t = recoverSpecified t := by
  unfold recoverScalar recoverSpecified
  by_cases h1 : t = "null"
  · simp [h1]
  by_cases h2 : t = "true"
  · simp [h1, h2]
  by_cases h3 : t = "false"
  · simp [h1, h2, h3]
  simp only [if_neg h1, if_neg h2, if_neg h3]
  cases hopt : jsToNumberOpt t with
  | none => simp
  | some n =>
    by_cases hc : (parseFloatOk t && !(trimJS t.data).isEmpty) = true
    · simp [hc]
    · simp [hc]

/-- C2 (amended): for every successfully authenticated decryption, the
recovered text is mapped to a scalar in this exact priority order: the
literal text `null` yields Null; the literal `true` or `false` yields the
corresponding Bool; otherwise, if the entire trimmed text converts to a
number (JavaScript `ToNumber` succeeds, `parseFloat` succeeds, and the
trimmed text is nonempty — this includes the non-finite literals
`Infinity` and `-Infinity`; only text converting to `NaN` is excluded),
it yields that Number; otherwise it yields the recovered text verbatim
as a String.  The word `finite` of the original claim is dropped: the
code's `!isNaN(...)` check admits `Infinity` (see the counterexample). -/
theorem c2_recovery (key iv : List Nat) (s : String) :
    decryptValue key iv (.str (encryptValue key iv (.str s))) = .ok (recoverSpecified s) := by
  rw [decryptValue_encryptValue]
  show Except.ok (recoverScalar s) = _
  rw [recoverScalar_eq_specified]

/-- C2 counterexample: the recovered text `"Infinity"` does not parse as
a finite numeric literal, so the original claim requires the String
`"Infinity"`; the code returns the Number `Infinity` instead. -/
theorem c2_recovery_counterexample :
    decryptValue key0 iv0 (.str (encryptValue key0 iv0 (.str "Infinity"))) =
      .ok (.num (.inf false)) ∧
      decryptValue key0 iv0 (.str (encryptValue key0 iv0 (.str "Infinity"))) ≠
        .ok (.str "Infinity") := by
  constructor
  · rfl
  · intro hcontra
    rw [show decryptValue key0 iv0 (.str (encryptValue key0 iv0 (.str "Infinity"))) =
        .ok (.num (.inf false)) from rfl] at hcontra
    cases hcontra

/-- C3 (amended): the value-level decrypt returns its input unchanged
exactly on the inputs the source's guards screen out: every non-string,
every string with no `'.'`, and every string with two or more `'.'`.  A
string with exactly one `'.'` is passed to the AEAD path even when one
of the two segments is empty — the original claim's "two non-empty
segments" shape is not what the code checks (see the counterexample
`"."`, which raises `DecryptionError` instead of being returned
unchanged). -/
theorem c3_passthrough :
    (∀ (key iv : List Nat) (v : JSValue), isStringVal v = false →
        decryptValue key iv v = .ok v) ∧
      ∀ (key iv : List Nat) (s : String),
        ('.' ∉ s.data ∨ 2 ≤ s.data.count '.') →
        decryptValue key iv (.str s) = .ok (.str s) := by
  constructor
  · intro key iv v hv
    cases v with
    | str s => cases hv
    | null => rfl
    | undef => rfl
    | bool b => rfl
    | num n => rfl
    | arr xs => rfl
    | obj fs => rfl
  · intro key iv s hs
    rcases hs with hs | hs
    · simp [decryptValue, hs]
    · have hmem : '.' ∈ s.data := List.count_pos_iff.mp (by omega)
      have hlen := splitDot_length s.data
      obtain ⟨a, b, c, rest3, hsp⟩ :
          ∃ a b c rest3, splitDot s.data = a :: b :: c :: rest3 := by
        rcases hsplit : splitDot s.data with _ | ⟨a, _ | ⟨b, _ | ⟨c, r⟩⟩⟩
        · exact absurd hsplit (splitDot_ne_nil s.data)
        · rw [hsplit] at hlen
          simp only [List.length_cons, List.length_nil] at hlen
          omega
        · rw [hsplit] at hlen
          simp only [List.length_cons, List.length_nil] at hlen
          omega
        · exact ⟨a, b, c, r, rfl⟩
      simp only [decryptValue, hmem, if_true, hsp]

/-- C3 witness: a non-string input and the spec's own example string
`"Anytown.With.Dots"` (two dots) are both returned unchanged. -/
theorem c3_passthrough_witness :
    decryptValue key0 iv0 (.num (.dec 7 0)) = .ok (.num (.dec 7 0)) ∧
      decryptValue key0 iv0 (.str "Anytown.With.Dots") = .ok (.str "Anytown.With.Dots") :=
  ⟨c3_passthrough.1 key0 iv0 _ (by decide),
    c3_passthrough.2 key0 iv0 _ (Or.inr (by decide))⟩

/-- C3 counterexample: the string `"."` does not consist of one `'.'`
separating two non-empty segments, so the original claim requires it to
be returned unchanged; the code sends it into the AEAD path, which
raises `DecryptionError`. -/
theorem c3_passthrough_counterexample :
    decryptValue key0 iv0 (.str ".") = .error .decryptionError ∧
      decryptValue key0 iv0 (.str ".") ≠ .ok (.str ".") := by
  constructor
  · rfl
  · intro hcontra
    rw [show decryptValue key0 iv0 (.str ".") = .error .decryptionError from rfl] at hcontra
    cases hcontra

theorem b64encodeList_eq_nil_iff (bs : List Nat) : b64encodeList bs = [] ↔ bs = [] := by
  cases bs with
  | nil => simp [b64encodeList]
  | cons b rest =>
    cases rest with
    | nil => simp [b64encodeList]
    | cons c rest2 =>
      cases rest2 with
      | nil => simp [b64encodeList]
      | cons d rest3 => simp [b64encodeList]

theorem strBytes_eq_nil_iff (s : String) : strBytes s = [] ↔ s.data = [] := by
  cases hd : s.data with
  | nil => simp [strBytes, hd]
  | cons c rest => simp [strBytes, hd, charTriple]

/-- C4 (amended): for every scalar input (Null, Bool, Number, String),
the value-level encrypt returns a string whose split on `'.'` yields
exactly two base64 segments — the ciphertext and the authentication tag
produced by the (modelled) AEAD primitive; the tag segment is always
non-empty (a wire string without the tag is never produced), while the
ciphertext segment is empty exactly when the canonical string of the
input is empty.  The original claim's "two non-empty segments" fails on
the empty-string scalar (see the counterexample). -/
theorem c4_wire_shape (key iv : List Nat) (v : JSValue) (_hv : isScalar v = true) :
    splitDot (encryptValue key iv v).data =
      [b64encodeList (xorKs key iv 0 (strBytes (canonicalString v))),
        b64encodeList (mac key iv (xorKs key iv 0 (strBytes (canonicalString v))))] ∧
      b64encodeList (mac key iv (xorKs key iv 0 (strBytes (canonicalString v)))) ≠ [] ∧
      (b64encodeList (xorKs key iv 0 (strBytes (canonicalString v))) = [] ↔
        (canonicalString v).data = []) := by
  have hptlt := strBytes_lt (canonicalString v)
  have hctlt := xorKs_lt key iv 0 _ hptlt
  have htglt := mac_lt key iv _ hctlt
  refine ⟨?_, ?_, ?_⟩
  · show splitDot
        (b64encodeList (xorKs key iv 0 (strBytes (canonicalString v))) ++
          '.' :: b64encodeList (mac key iv (xorKs key iv 0 (strBytes (canonicalString v))))) = _
    exact splitDot_two (b64encode_not_dot _ hctlt) (b64encode_not_dot _ htglt)
  · intro hnil
    exact mac_ne_nil key iv _ ((b64encodeList_eq_nil_iff _).mp hnil)
  · rw [b64encodeList_eq_nil_iff, xorKs_eq_nil_iff, strBytes_eq_nil_iff]

/-- C4 witness: for the concrete scalar `null` the wire string splits
into the ciphertext segment and the tag segment. -/
theorem c4_wire_shape_witness :
    isScalar JSValue.null = true ∧
      splitDot (encryptValue key0 iv0 .null).data =
        [b64encodeList (xorKs key0 iv0 0 (strBytes (canonicalString .null))),
          b64encodeList (mac key0 iv0 (xorKs key0 iv0 0 (strBytes (canonicalString .null))))] :=
  ⟨rfl, (c4_wire_shape key0 iv0 .null rfl).1⟩

/-- C4 counterexample: encrypting the String scalar `""` produces a wire
string that begins with the delimiter `'.'`: its first `'.'`-segment is
empty, contradicting the original claim's "two non-empty base64
segments". -/
theorem c4_wire_shape_counterexample :
    isScalar (JSValue.str "") = true ∧
      (encryptValue key0 iv0 (.str "")).data.head? = some '.' ∧
      (splitDot (encryptValue key0 iv0 (.str "")).data).head? = some [] := by
  refine ⟨rfl, rfl, rfl⟩

theorem flipCharBit_ne {c : Char} {j : Nat} (hc : c.toNat < 128) (hj : j < 8) :
    flipCharBit j c ≠ c := by
  intro he
  have hpow : (2 : Nat) ^ j ≤ 2 ^ 7 := Nat.pow_le_pow_right (by omega) (by omega)
  have hxor : c.toNat ^^^ 2 ^ j < 256 := by
    have h1 : c.toNat < 2 ^ 8 := by omega
    have h2 : 2 ^ j < 2 ^ 8 := by
      have := hpow
      norm_num at this ⊢
      omega
    have := Nat.xor_lt_two_pow h1 h2
    omega
  have hvalid : Nat.isValidChar (c.toNat ^^^ 2 ^ j) := Or.inl (by omega)
  have htoNat := congrArg Char.toNat he
  simp only [flipCharBit] at htoNat
  rw [char_toNat_ofNat hvalid] at htoNat
  have hcontr : c.toNat ^^^ (c.toNat ^^^ 2 ^ j) = c.toNat ^^^ c.toNat := by rw [htoNat]
  rw [← Nat.xor_assoc, Nat.xor_self, Nat.zero_xor] at hcontr
  have h2j : (2 : Nat) ^ j ≠ 0 := Nat.pos_iff_ne_zero.mp (Nat.pos_pow_of_pos j (by omega))
  exact h2j hcontr

theorem flipAt_ne {cs : List Char} (hascii : ∀ c ∈ cs, c.toNat < 128) :
    ∀ {i j : Nat}, i < cs.length → j < 8 → flipAt cs i j ≠ cs := by
  induction cs with
  | nil =>
    intro i j hi _
    simp at hi
  | cons c rest ih =>
    intro i j hi hj
    cases i with
    | zero =>
      simp only [flipAt]
      intro he
      injection he with h1 h2
      exact flipCharBit_ne (hascii c (List.mem_cons_self _ _)) hj h1
    | succ i2 =>
      simp only [flipAt]
      intro he
      injection he with h1 h2
      exact ih (fun x hx => hascii x (List.mem_cons_of_mem _ hx))
        (by simpa using hi) hj h2

theorem decrypt_error_first_segment (key iv : List Nat) (ct : List Nat)
    (hct : ∀ x ∈ ct, x < 256) {a2 : List Char}
    (ha2dot : '.' ∉ a2) (hne : a2 ≠ b64encodeList ct) :
    decryptValue key iv
        (.str (String.mk (a2 ++ '.' :: b64encodeList (mac key iv ct)))) =
      .error .decryptionError := by
  have htglt := mac_lt key iv ct hct
  have hBdot : '.' ∉ b64encodeList (mac key iv ct) := b64encode_not_dot _ htglt
  have hmem : '.' ∈ a2 ++ '.' :: b64encodeList (mac key iv ct) :=
    List.mem_append_right _ (List.mem_cons_self _ _)
  simp only [decryptValue, hmem, if_true, splitDot_two ha2dot hBdot,
    b64decodeStrict_encode _ htglt]
  cases hdec : b64decodeStrict a2 with
  | none => rfl
  | some ct2 =>
    have henc : b64encodeList ct2 = a2 := b64decodeStrict_sound hdec
    have hctne : ct2 ≠ ct := by
      intro he
      exact hne (by rw [← henc, he])
    have hmacne : ¬ mac key iv ct2 = mac key iv ct := fun he => hctne (mac_inj key iv he)
    simp [hmacne]

theorem decrypt_error_second_segment (key iv : List Nat) (ct : List Nat)
    (hct : ∀ x ∈ ct, x < 256) {b2 : List Char}
    (hb2dot : '.' ∉ b2) (hne : b2 ≠ b64encodeList (mac key iv ct)) :
    decryptValue key iv (.str (String.mk (b64encodeList ct ++ '.' :: b2))) =
      .error .decryptionError := by
  have hAdot : '.' ∉ b64encodeList ct := b64encode_not_dot _ hct
  have hmem : '.' ∈ b64encodeList ct ++ '.' :: b2 :=
    List.mem_append_right _ (List.mem_cons_self _ _)
  simp only [decryptValue, hmem, if_true, splitDot_two hAdot hb2dot,
    b64decodeStrict_encode _ hct]
  cases hdec : b64decodeStrict b2 with
  | none => rfl
  | some tg2 =>
    have henc : b64encodeList tg2 = b2 := b64decodeStrict_sound hdec
    have htgne : ¬ mac key iv ct = tg2 := by
      intro he
      exact hne (by rw [← henc, ← he])
    simp [htgne]

/-- C5 (amended): every valid wire string produced by the value-level
encrypt is the ciphertext segment, the `'.'` delimiter, and the tag
segment; and every single-bit flip (bit `j < 8` of the ASCII code of
character `i`) applied to either segment, *provided the flipped string
still contains exactly one `'.'`*, makes decrypt raise
`DecryptionError`.  The proviso is forced: the base64 alphabet contains
`'/'`, one bit away from `'.'`, and a flip that creates a second `'.'`
makes the string fail the two-part shape check, so `decryptValue`
returns the tampered string unchanged instead of raising (see the
counterexample). -/
theorem c5_tamper_detection (key iv : List Nat) (v : JSValue) (i j : Nat) (hj : j < 8) :
    (encryptValue key iv v).data =
        b64encodeList (xorKs key iv 0 (strBytes (canonicalString v))) ++
          '.' :: b64encodeList (mac key iv (xorKs key iv 0 (strBytes (canonicalString v)))) ∧
      (i < (b64encodeList (xorKs key iv 0 (strBytes (canonicalString v)))).length →
        '.' ∉ flipAt (b64encodeList (xorKs key iv 0 (strBytes (canonicalString v)))) i j →
        decryptValue key iv (.str (String.mk
          (flipAt (b64encodeList (xorKs key iv 0 (strBytes (canonicalString v)))) i j ++
            '.' :: b64encodeList (mac key iv (xorKs key iv 0 (strBytes (canonicalString v))))))) =
          .error .decryptionError) ∧
      (i < (b64encodeList (mac key iv (xorKs key iv 0 (strBytes (canonicalString v))))).length →
        '.' ∉ flipAt (b64encodeList (mac key iv (xorKs key iv 0 (strBytes (canonicalString v))))) i j →
        decryptValue key iv (.str (String.mk
          (b64encodeList (xorKs key iv 0 (strBytes (canonicalString v))) ++
            '.' :: flipAt (b64encodeList (mac key iv (xorKs key iv 0 (strBytes (canonicalString v))))) i j))) =
          .error .decryptionError) := by
  have hptlt := strBytes_lt (canonicalString v)
  have hctlt := xorKs_lt key iv 0 _ hptlt
  have htglt := mac_lt key iv _ hctlt
  refine ⟨rfl, ?_, ?_⟩
  · intro hi hdot
    exact decrypt_error_first_segment key iv _ hctlt hdot
      (flipAt_ne (fun c hc => (b64encodeList_mem _ hctlt c hc).2) hi hj)
  · intro hi hdot
    exact decrypt_error_second_segment key iv _ hctlt hdot
      (flipAt_ne (fun c hc => (b64encodeList_mem _ htglt c hc).2) hi hj)

/-- C5 witness: flipping bit 1 of the first ciphertext-segment character
of the wire string for `null` under `key0`/`iv0` keeps the one-dot shape
and makes decrypt raise `DecryptionError`. -/
theorem c5_tamper_detection_witness :
    decryptValue key0 iv0 (.str (String.mk
        (flipAt (b64encodeList (xorKs key0 iv0 0 (strBytes (canonicalString .null)))) 0 1 ++
          '.' :: b64encodeList (mac key0 iv0 (xorKs key0 iv0 0 (strBytes (canonicalString .null))))))) =
      .error .decryptionError :=
  (c5_tamper_detection key0 iv0 .null 0 1 (by decide)).2.1 (by decide) (by decide)

/-- C5 counterexample: under `key1`/`iv1` the wire string for `null`
begins with `'/'`; flipping bit 0 of that single character — a one-bit
corruption inside the first segment — turns it into `'.'`, and decrypt
then *returns the tampered string unchanged* instead of raising
`DecryptionError`, contradicting the original claim. -/
theorem c5_tamper_counterexample :
    (encryptValue key1 iv1 .null).data.head? = some '/' ∧
      (flipAt (encryptValue key1 iv1 .null).data 0 0).head? = some '.' ∧
      decryptValue key1 iv1
          (.str (String.mk (flipAt (encryptValue key1 iv1 .null).data 0 0))) =
        .ok (.str (String.mk (flipAt (encryptValue key1 iv1 .null).data 0 0))) := by
  refine ⟨rfl, rfl, rfl⟩

/-- C6: constructing the key material fails with `ConfigurationError`
whenever the key or nonce input is missing (or empty, which is falsy in
JavaScript), not strictly hexadecimal, or decodes to the wrong byte
length (key 32 bytes, nonce 16 bytes) — and succeeds exactly otherwise.
In particular a 63-hex-char key, a non-hex 64-char string, and an empty
nonce each raise `ConfigurationError`, while a valid 64-hex-char key
with a valid 32-hex-char nonce succeeds.  (The environment interface
always supplies strings, so "not a string" has no counterpart in the
model; hex decoding is the strict spec-modelled codec.) -/
theorem c6_initialization_validation :
    (∀ envKey envIv, (initializeEncryptionKeys envKey envIv).2 = none ↔
        initOk envKey envIv = true) ∧
      (∀ envKey envIv e, (initializeEncryptionKeys envKey envIv).2 = some e →
        e = .configurationError) ∧
      (initializeEncryptionKeys (some (String.mk (List.replicate 63 'a')))
          (some (String.mk (List.replicate 32 'b')))).2 = some .configurationError ∧
      (initializeEncryptionKeys (some (String.mk (List.replicate 64 'z')))
          (some (String.mk (List.replicate 32 'b')))).2 = some .configurationError ∧
      (initializeEncryptionKeys (some (String.mk (List.replicate 64 'a')))
          (some "")).2 = some .configurationError ∧
      (initializeEncryptionKeys (some (String.mk (List.replicate 64 'a')))
          (some (String.mk (List.replicate 32 'b')))).2 = none := by
  refine ⟨?_, ?_, by decide, by decide, by decide, by decide⟩
  · intro ek ei
    cases ek with
    | none => simp [initializeEncryptionKeys, initOk]
    | some ks =>
      cases ei with
      | none => simp [initializeEncryptionKeys, initOk]
      | some ivs =>
        simp only [initializeEncryptionKeys, initOk]
        by_cases h0 : ks = "" ∨ ivs = ""
        · rw [if_pos h0]
          rcases h0 with h0 | h0 <;> simp [h0]
        · rw [if_neg h0]
          push_neg at h0
          obtain ⟨hks, hivs⟩ := h0
          cases hkd : hexDecode ks with
          | none => simp [hks, hivs]
          | some k =>
            by_cases hkl : k.length = 32
            · cases hid : hexDecode ivs with
              | none => simp [hks, hivs, hkl]
              | some iv2 =>
                by_cases hil : iv2.length = 16
                · simp [hks, hivs, hkl, hil]
                · simp [hks, hivs, hkl, hil]
            · simp [hks, hivs, hkl]
  · intro ek ei e he
    cases ek with
    | none =>
      cases ei with
      | none => exact (Option.some.inj he).symm
      | some ivs => exact (Option.some.inj he).symm
    | some ks =>
      cases ei with
      | none => exact (Option.some.inj he).symm
      | some ivs =>
        simp only [initializeEncryptionKeys] at he
        split at he
        · exact (Option.some.inj he).symm
        · split at he
          · exact (Option.some.inj he).symm
          · split at he
            · exact (Option.some.inj he).symm
            · split at he
              · exact (Option.some.inj he).symm
              · split at he
                · exact (Option.some.inj he).symm
                · exact Option.noConfusion he

mutual
theorem shapeVal (key iv : List Nat) (v : JSValue) :
    wireShape key iv v (encTree key iv v) = true := by
  cases v with
  | null => simp [wireShape, encTree]
  | undef => rfl
  | bool b => simp [wireShape, encTree]
  | num n => simp [wireShape, encTree]
  | str s => simp [wireShape, encTree]
  | arr xs =>
    simp only [encTree, wireShape]
    exact shapeList key iv xs
  | obj fs =>
    simp only [encTree, wireShape]
    exact shapeFields key iv fs
theorem shapeList (key iv : List Nat) (xs : JSList) :
    wireShapeL key iv xs (encTreeL key iv xs) = true := by
  cases xs with
  | nil => rfl
  | cons x rest =>
    simp only [encTreeL, wireShapeL, Bool.and_eq_true]
    exact ⟨shapeVal key iv x, shapeList key iv rest⟩
theorem shapeFields (key iv : List Nat) (fs : JSFields) :
    wireShapeF key iv fs (encTreeF key iv fs) = true := by
  cases fs with
  | fnil => rfl
  | fcons k v rest =>
    simp only [encTreeF, wireShapeF, Bool.and_eq_true]
    exact ⟨⟨by simp, shapeVal key iv v⟩, shapeFields key iv rest⟩
end

/-- C7: with configured keys, `encryptJsonObject` runs the walker and
the result is structurally identical to the input at every depth —
objects keep the same own-enumerable key list in the same order (the
model's objects are exactly the own-enumerable entries; inherited
properties have no counterpart), arrays keep length and element order,
`undefined` passes through, and every scalar leaf is replaced by exactly
its `encryptValue` wire string. -/
theorem c7_shape_preservation (key iv : List Nat) (t : JSValue) :
    encryptJsonObject ⟨some key, some iv⟩ t = .ok (encTree key iv t) ∧
      wireShape key iv t (encTree key iv t) = true :=
  ⟨rfl, shapeVal key iv t⟩

mutual
theorem failsVal (key iv : List Nat) (v : JSValue) (h : anyLeafFails key iv v = true) :
    ∃ e, decTree key iv v = .error e := by
  cases v with
  | null => cases h
  | undef => cases h
  | bool b => cases h
  | num n => cases h
  | str s =>
    simp only [anyLeafFails] at h
    cases hdec : decryptValue key iv (.str s) with
    | ok y =>
      rw [hdec] at h
      cases h
    | error e => exact ⟨e, hdec⟩
  | arr xs =>
    obtain ⟨e, he⟩ := failsList key iv xs (by simpa [anyLeafFails] using h)
    exact ⟨e, by simp [decTree, he]⟩
  | obj fs =>
    obtain ⟨e, he⟩ := failsFields key iv fs (by simpa [anyLeafFails] using h)
    exact ⟨e, by simp [decTree, he]⟩
theorem failsList (key iv : List Nat) (xs : JSList) (h : anyLeafFailsL key iv xs = true) :
    ∃ e, decTreeL key iv xs = .error e := by
  cases xs with
  | nil => cases h
  | cons x rest =>
    cases hx : decTree key iv x with
    | error e => exact ⟨e, by simp [decTreeL, hx]⟩
    | ok y =>
      simp only [anyLeafFailsL, Bool.or_eq_true] at h
      rcases h with h | h
      · obtain ⟨e, he⟩ := failsVal key iv x h
        rw [he] at hx
        cases hx
      · obtain ⟨e, he⟩ := failsList key iv rest h
        exact ⟨e, by simp [decTreeL, hx, he]⟩
theorem failsFields (key iv : List Nat) (fs : JSFields) (h : anyLeafFailsF key iv fs = true) :
    ∃ e, decTreeF key iv fs = .error e := by
  cases fs with
  | fnil => cases h
  | fcons k v rest =>
    cases hx : decTree key iv v with
    | error e => exact ⟨e, by simp [decTreeF, hx]⟩
    | ok y =>
      simp only [anyLeafFailsF, Bool.or_eq_true] at h
      rcases h with h | h
      · obtain ⟨e, he⟩ := failsVal key iv v h
        rw [he] at hx
        cases hx
      · obtain ⟨e, he⟩ := failsFields key iv rest h
        exact ⟨e, by simp [decTreeF, hx, he]⟩
end

/-- C8: the decrypt tree walker never catches or suppresses a leaf
error: whenever any string leaf makes `decryptValue` raise, the whole
`decryptJsonObject` call aborts with an error — no partial result is
returned.  (On the encrypt side the model's `encryptValue` is total with
configured keys, so no leaf error can arise there; the configured-keys
guards themselves are covered by C10.) -/
theorem c8_leaf_error_propagation (key iv : List Nat) (t : JSValue)
    (h : anyLeafFails key iv t = true) :
    ∃ e, decryptJsonObject ⟨some key, some iv⟩ t = .error e :=
  failsVal key iv t h

/-- C8 witness: a two-entry object whose second leaf is the failing
string `"."` makes the whole `decryptJsonObject` call raise. -/
theorem c8_leaf_error_propagation_witness :
    anyLeafFails key0 iv0 (.obj (.fcons "a" (.str "ok") (.fcons "b" (.str ".") .fnil))) =
        true ∧
      ∃ e, decryptJsonObject st0
          (.obj (.fcons "a" (.str "ok") (.fcons "b" (.str ".") .fnil))) = .error e :=
  ⟨by decide, c8_leaf_error_propagation key0 iv0 _ (by decide)⟩

/-- C9: encryption is deterministic — the source reuses the one
module-level IV for every call and draws no randomness — so any two
scalars with the same canonical string form encrypt to identical wire
strings under the same key material (equality of plaintexts is visible
in the ciphertexts). -/
theorem c9_deterministic_encryption (key iv : List Nat) (v w : JSValue)
    (h : canonicalString v = canonicalString w) :
    encryptValue key iv v = encryptValue key iv w := by
  simp only [encryptValue, h]

/-- C9 witness: the Number `42` and the String `"42"` share the
canonical form `"42"` and encrypt to the same wire string. -/
theorem c9_deterministic_encryption_witness :
    canonicalString (.num (.dec 42 0)) = canonicalString (.str "42") ∧
      encryptValue key0 iv0 (.num (.dec 42 0)) = encryptValue key0 iv0 (.str "42") :=
  ⟨by decide, c9_deterministic_encryption key0 iv0 _ _ (by decide)⟩

/-- C10 (implicit): whenever initialization fails — missing/empty
environment values, invalid hex, or wrong decoded length — both
module-level variables are reset to `null` before the error is raised,
so no partial or stale key material survives, and every subsequent
`encryptJsonObject` or `decryptJsonObject` call raises its
keys-not-configured error instead of using leftover keys. -/
theorem c10_reset_on_failure (envKey envIv : Option String) (e : CodecError) (v : JSValue)
    (h : (initializeEncryptionKeys envKey envIv).2 = some e) :
    (initializeEncryptionKeys envKey envIv).1 = ⟨none, none⟩ ∧
      encryptJsonObject (initializeEncryptionKeys envKey envIv).1 v =
        .error .encryptionError ∧
      decryptJsonObject (initializeEncryptionKeys envKey envIv).1 v =
        .error .decryptionError := by
  have hcases : (initializeEncryptionKeys envKey envIv).2 = none ∨
      initializeEncryptionKeys envKey envIv = (⟨none, none⟩, some .configurationError) := by
    cases envKey with
    | none => exact Or.inr rfl
    | some ks =>
      cases envIv with
      | none => exact Or.inr rfl
      | some ivs =>
        simp only [initializeEncryptionKeys]
        split
        · exact Or.inr rfl
        · split
          · exact Or.inr rfl
          · split
            · exact Or.inr rfl
            · split
              · exact Or.inr rfl
              · split
                · exact Or.inr rfl
                · exact Or.inl rfl
  rcases hcases with hc | hc
  · rw [h] at hc
    exact Option.noConfusion hc
  · rw [hc]
    exact ⟨rfl, rfl, rfl⟩

/-- C10 witness: with the key variable unset, initialization fails, the
state is nulled, and a subsequent encrypt call raises. -/
theorem c10_reset_on_failure_witness :
    (initializeEncryptionKeys none (some "aa")).2 = some .configurationError ∧
      encryptJsonObject (initializeEncryptionKeys none (some "aa")).1 .null =
        .error .encryptionError :=
  ⟨rfl, (c10_reset_on_failure none (some "aa") .configurationError .null rfl).2.1⟩

/-- C6 witness: a concrete valid 64-hex-char key and 32-hex-char nonce
satisfy the success characterization. -/
theorem c6_initialization_validation_witness :
    initOk (some (String.mk (List.replicate 64 'a')))
      (some (String.mk (List.replicate 32 'b'))) = true :=
  (c6_initialization_validation.1 (some (String.mk (List.replicate 64 'a')))
    (some (String.mk (List.replicate 32 'b')))).mp (by decide)
